import Mathlib

/-!
Shallow embedding of the Entry Reusage System (src/src/common/ers.c) and
verification of its specification.

Modelling conventions:
- `uint32` fields are `Nat` with an explicit `% 2^32` at the operations where
  the source acknowledges possible wrap-around (block-array capacity growth,
  size normalization) or where wrap is reachable (instance-count decrement at
  zero).  Counters whose wrap would need 2^32 prior operations through guarded
  paths (`num`, and `destroy` on increment) are plain `Nat` successors.
- An entry (a `void *` into a block) is identified by the pair
  (block index, slot index): the address `&blocks[b][s * size]` is determined
  by, and determines, that pair for a fixed manager.
- Raw block memory is not modelled beyond the block count `num`: the code
  never reads or writes entry contents.
- The root array `ers_root` together with `ers_num` is a list of managers;
  pointer identity of `aMalloc`-ed manager records is modelled by a unique
  `id` drawn from a counter in the root state.
-/

namespace ERS

/-- Number of entries in each block (`ERS_BLOCK_ENTRIES` in ers.c). -/
def ERS_BLOCK_ENTRIES : Nat := 4096

/-- Maximum number of root entry managers (`ERS_ROOT_SIZE` in ers.c). -/
def ERS_ROOT_SIZE : Nat := 256

/-- Modulus of 32-bit unsigned arithmetic. -/
def U32 : Nat := 2 ^ 32

/-- Largest `uint32` value (`UINT32_MAX` in ers.c). -/
def UINT32_MAX : Nat := U32 - 1

/-- An entry handed out by a manager: (block index, slot index within the
block).  The slot at pair `(b, s)` is the address `&blocks[b][s * size]`. -/
abbrev Entry := Nat × Nat

/-- State of one entry manager (`struct ers` in ers.c).  The function-pointer
interface `eri` is represented by the operations below; `id` models the
pointer identity of the `aMalloc`-ed record. -/
structure ERSystem where
  /-- Pointer identity of this manager record. -/
  id : Nat
  /-- Field `reuse`: linked list of reusable (freed) entries, head first. -/
  reuse : List Entry
  /-- Field `free`: number of unused entries in the last block. -/
  free : Nat
  /-- Field `num`: number of blocks in the array. -/
  num : Nat
  /-- Field `max`: current capacity of the block array. -/
  max : Nat
  /-- Field `destroy`: destroy lock, i.e. the number of live instances. -/
  destroy : Nat
  /-- Field `size`: size of the entries of this manager in bytes. -/
  size : Nat
  deriving DecidableEq, Repr

/-- Result of `ers_obj_alloc_entry`: an entry plus the updated manager, or
fatal termination (`ShowFatalError` + `exit`). -/
inductive AllocResult where
  | ok (entry : Entry) (m : ERSystem)
  | fatal
  deriving DecidableEq, Repr

/-- Translation of `ers_obj_alloc_entry` (ers.c lines 197-229), on a non-NULL manager.
Pops the reuse list if non-empty; else carves the next unused slot of the
last block; else grows the block array if full (fatal at `UINT32_MAX`) and
carves the last slot of a fresh block. -/
def ers_obj_alloc_entry (obj : ERSystem) : AllocResult :=
  match obj.reuse with
  | entry :: rest => -- Reusable entry
      AllocResult.ok entry { obj with reuse := rest }
  | [] =>
      if 0 < obj.free then -- Unused entry
        AllocResult.ok (obj.num - 1, obj.free - 1) { obj with free := obj.free - 1 }
      else if obj.num = obj.max then -- expand the block array
        if obj.max = UINT32_MAX then -- No more space for blocks
          AllocResult.fatal
        else
          -- obj->max = (obj->max<<2) +3, uint32 arithmetic
          AllocResult.ok (obj.num, ERS_BLOCK_ENTRIES - 1)
            { obj with
                max := (obj.max * 4 + 3) % U32
                free := ERS_BLOCK_ENTRIES - 1
                num := obj.num + 1 }
      else -- allocate a new block
        AllocResult.ok (obj.num, ERS_BLOCK_ENTRIES - 1)
          { obj with free := ERS_BLOCK_ENTRIES - 1, num := obj.num + 1 }

/-- Translation of `ers_obj_free_entry` (ers.c lines 243-259), on a non-NULL manager and
entry: pushes the entry on the head of the reuse list. -/
def ers_obj_free_entry (obj : ERSystem) (entry : Entry) : ERSystem :=
  { obj with reuse := entry :: obj.reuse }

/-- Translation of `ers_obj_entry_size` (ers.c lines 270-280), on a non-NULL manager. -/
def ers_obj_entry_size (obj : ERSystem) : Nat :=
  obj.size

/-- State of the root registry: `ers_root[0 .. ers_num)` as a list (so
`ers_num` is the list length), plus the counter providing fresh pointer
identities for newly `aMalloc`-ed manager records. -/
structure RootState where
  root : List ERSystem
  nextId : Nat
  deriving DecidableEq, Repr

/-- Root state before any manager has been created. -/
def emptyRoot : RootState := { root := [], nextId := 0 }

/-- Manager record as initialized by `ers_new` (ers.c lines 410-424). -/
def freshManager (id sz : Nat) : ERSystem :=
  { id := id, reuse := [], free := 0, num := 0, max := 0, destroy := 1, size := sz }

instance : Inhabited ERSystem := ⟨freshManager 0 0⟩

/-- Size normalization performed by `ers_new` (ers.c lines 391-394): raise to
the minimum (the size of one free-list link, `sizeof(struct ers_ll)`), then
align upwards to a multiple of `ERS_ALIGNED`.  Both constants come from
ers.h and the target platform, so they are parameters here.  The alignment
addition is `uint32` arithmetic and can wrap. -/
def normalizeSize (linkSize ALIGNED size : Nat) : Nat :=
  let s1 := if size < linkSize then linkSize else size -- Minimum size
  if s1 % ALIGNED ≠ 0 then (s1 + (ALIGNED - s1 % ALIGNED)) % U32 else s1 -- Align size

/-- Result of `ers_new`: a handle (the `&obj->eri` pointer, identified with
the manager id) plus the updated root state, a logged error returning NULL,
or fatal termination. -/
inductive ErsNewResult where
  | ok (handle : Nat) (st : RootState)
  | nullError (st : RootState)
  | fatal
  deriving DecidableEq, Repr

/-- Scan loop of `ers_new` (ers.c lines 396-403): find the first manager with
the given (already normalized) size; on a hit increment its destroy lock in
place and return its handle together with the updated root list. -/
def scanRoot (sz : Nat) : List ERSystem → Option (Nat × List ERSystem)
  | [] => none
  | obj :: rest =>
      if obj.size = sz then
        some (obj.id, { obj with destroy := obj.destroy + 1 } :: rest)
      else
        match scanRoot sz rest with
        | some (h, rest') => some (h, obj :: rest')
        | none => none

/-- Translation of `ers_new` (ers.c lines 380-427).  `size == 0` logs an error and returns
NULL; otherwise the size is normalized, an existing manager of that size is
shared, and else a fresh manager is registered — fatally aborting when the
root array is full. -/
def ers_new (linkSize ALIGNED size : Nat) (st : RootState) : ErsNewResult :=
  if size = 0 then
    ErsNewResult.nullError st
  else
    let sz := normalizeSize linkSize ALIGNED size
    match scanRoot sz st.root with
    | some (h, root') =>
        -- found a manager that handles the entry size
        ErsNewResult.ok h { st with root := root' }
    | none =>
        -- create a new manager to handle the entry size
        if st.root.length = ERS_ROOT_SIZE then
          ErsNewResult.fatal
        else
          ErsNewResult.ok st.nextId
            { root := st.root ++ [freshManager st.nextId sz], nextId := st.nextId + 1 }

/-- Swap-with-last removal used by `ers_obj_destroy` (ers.c lines 309-316):
`ers_num--`, and when the removed slot is not the last one the last manager
is moved into it. -/
def swapRemove (root : List ERSystem) (i : Nat) : List ERSystem :=
  (root.set i (root.getLast?.getD default)).dropLast

/-- First registry index holding the manager record `mid` (the pointer
comparison loop of ers.c lines 309-316; distinct records have distinct
pointers, modelled by the unique `id`). -/
def findMgr (mid : Nat) : List ERSystem → Option Nat
  | [] => none
  | obj :: rest =>
      if obj.id = mid then some 0 else (findMgr mid rest).map (· + 1)

/-- Translation of `ers_obj_destroy` (ers.c lines 293-354) for a manager record `mid` that
may live in the registry.  The destroy lock is decremented (`uint32`
decrement, wrapping at 0); if it is still non-zero the manager stays,
otherwise it is swap-removed from the root array and its memory released.
The missing/extra-entry check of lines 317-346 only writes locals and logs a
warning, so it does not appear in the state transition. -/
def ers_obj_destroy (mid : Nat) (st : RootState) : RootState :=
  match findMgr mid st.root with
  | none => st
  | some i =>
      let obj := st.root.getD i default
      let d := if obj.destroy = 0 then UINT32_MAX else obj.destroy - 1 -- obj->destroy--
      if d ≠ 0 then
        { st with root := st.root.set i { obj with destroy := d } } -- Not last instance
      else
        { st with root := swapRemove st.root i }

/-- Memory released by teardown code: an entry block (`aFree(obj->blocks[j])`),
the block-pointer array (`aFree(obj->blocks)`), or the manager record itself
(`aFree(obj)`), tagged by the owning manager's identity. -/
inductive Resource where
  | blockMem (mid j : Nat)
  | blockArrayMem (mid : Nat)
  | managerMem (mid : Nat)
  deriving DecidableEq, Repr

/-- Resources released for one manager by `ers_force_destroy_all` (ers.c
lines 520-527): all blocks and the block array when `max` is non-zero, then
the manager record. -/
def freedByManager (obj : ERSystem) : List Resource :=
  (if obj.max ≠ 0 then
    ((List.range obj.num).map fun j => Resource.blockMem obj.id j)
      ++ [Resource.blockArrayMem obj.id]
  else []) ++ [Resource.managerMem obj.id]

/-- Translation of `ers_force_destroy_all` (ers.c lines 515-530): released resources plus
the resulting root state (`ers_num = 0`). -/
def ers_force_destroy_all (st : RootState) : RootState × List Resource :=
  ({ st with root := [] }, (st.root.map freedByManager).flatten)

/-- Wrapping `uint32` subtraction of `a - b` (wrapping), for operands already below `U32`. -/
def u32sub (a b : Nat) : Nat :=
  (a % U32 + U32 - b % U32) % U32

/-- Inner `while (used && reuse)` loop of `ers_report` (ers.c lines 474-479):
consume reuse-list nodes against the running `used` count, incrementing
`reusable` with saturation at `UINT32_MAX`.  All writes are to locals. -/
def countReuse : Nat → Nat → List Entry → Nat × Nat × List Entry
  | 0, reusable, reuse => (0, reusable, reuse)
  | used + 1, reusable, [] => (used + 1, reusable, [])
  | used + 1, reusable, _ :: rest =>
      countReuse used (if reusable = UINT32_MAX then reusable else reusable + 1) rest

/-- Inner `for (; j < obj->num; j++)` loop of `ers_report` (ers.c lines
465-471): add `ERS_BLOCK_ENTRIES` per remaining block, saturating at
`UINT32_MAX`. -/
def tailBlocks (used : Nat) : Nat → Nat
  | 0 => used
  | r + 1 =>
      if used > UINT32_MAX - ERS_BLOCK_ENTRIES then UINT32_MAX -- overflow
      else tailBlocks (used + ERS_BLOCK_ENTRIES) r

/-- Outer `for (j = 0; j < obj->num; j++)` loop of `ers_report` (ers.c lines
459-480), counting used and reusable entries; `r` is the number of block
indices still to process and `isFirst` tells whether `j = 0`. -/
def reportBlocks (freeCnt : Nat) : Nat → Bool → Nat → Nat → List Entry → Nat × Nat × List Entry
  | 0, _, used, reusable, reuse => (used, reusable, reuse)
  | r + 1, isFirst, used, reusable, reuse =>
      if isFirst then -- take into acount the free entries
        let s := countReuse (u32sub ERS_BLOCK_ENTRIES freeCnt) reusable reuse
        reportBlocks freeCnt r false s.1 s.2.1 s.2.2
      else
        match reuse with
        | [] => -- no more reusable entries, count remaining used entries
            (tailBlocks used (r + 1), reusable, [])
        | _ :: _ => -- counting reusable entries
            let s := countReuse ERS_BLOCK_ENTRIES reusable reuse
            reportBlocks freeCnt r false s.1 s.2.1 s.2.2

/-- Trailing `while (reuse && extra != UINT32_MAX)` loop of `ers_report`
(ers.c lines 483-486): count extra reusable entries. -/
def countExtra : List Entry → Nat → Nat
  | [], extra => extra
  | _ :: rest, extra =>
      if extra = UINT32_MAX then extra else countExtra rest (extra + 1)

/-- Per-manager lines printed by `ers_report` (ers.c lines 488-497). -/
structure ManagerReport where
  instances : Nat
  entrySize : Nat
  blockArraySize : Nat
  allocatedBlocks : Nat
  entriesBeingUsed : Nat
  unusedEntries : Nat
  reusableEntries : Nat
  extraReusable : Nat
  deriving DecidableEq, Repr

/-- Report data computed for one manager by `ers_report`. -/
def reportManager (obj : ERSystem) : ManagerReport :=
  let s := reportBlocks obj.free obj.num true 0 0 obj.reuse
  { instances := obj.destroy
    entrySize := obj.size
    blockArraySize := obj.max
    allocatedBlocks := obj.num
    entriesBeingUsed := s.1
    unusedEntries := obj.free
    reusableEntries := s.2.1
    extraReusable := countExtra s.2.2 0 }

/-- Full output of `ers_report` (ers.c lines 442-500): the root-system lines
(root array size, manager count, entries per block) and the per-manager
reports.  Every assignment in the source writes a local variable, so the
root state is returned unchanged. -/
def ers_report (st : RootState) : (Nat × Nat × Nat × List ManagerReport) × RootState :=
  ((ERS_ROOT_SIZE, st.root.length, ERS_BLOCK_ENTRIES, st.root.map reportManager), st)

/-- Block-array capacities reachable by the growth rule
`newMax = oldMax * 4 + 3` starting from 0: the values `4^k - 1`, with at most
16 growth steps before `UINT32_MAX` is hit. -/
def capReachable (mx : Nat) : Prop :=
  ∃ k, k ≤ 16 ∧ mx = 4 ^ k - 1

/-- Manager invariant maintained by `ers_new`, `ers_obj_alloc_entry` and
`ers_obj_free_entry`: the block count never exceeds the capacity, the unused
count stays below `ERS_BLOCK_ENTRIES`, a positive unused count implies at
least one block exists, and the capacity is a value of the growth sequence. -/
def ErsInv (m : ERSystem) : Prop :=
  m.num ≤ m.max
    ∧ m.free ≤ ERS_BLOCK_ENTRIES - 1
    ∧ (0 < m.free → 1 ≤ m.num)
    ∧ capReachable m.max

/-! ## Theorems for the specification claims -/

/-- Helper: arithmetic of one capacity-growth step below the guard: the
`uint32` computation `(4^k - 1) * 4 + 3` does not wrap and yields
`4^(k+1) - 1`. -/
theorem cap_growth_arith (k : Nat) (hk : k < 16) :
    ((4 ^ k - 1) * 4 + 3) % U32 = (4 ^ k - 1) * 4 + 3
    ∧ (4 ^ k - 1) * 4 + 3 = 4 ^ (k + 1) - 1
    ∧ (4 ^ k - 1) * 4 + 3 ≤ UINT32_MAX
    ∧ 4 ^ k - 1 ≠ UINT32_MAX := by
  have h1 : 1 ≤ 4 ^ k := Nat.one_le_pow k 4 (by decide)
  have hsucc : 4 ^ (k + 1) = 4 ^ k * 4 := pow_succ 4 k
  have hle : 4 ^ (k + 1) ≤ 4 ^ 16 := Nat.pow_le_pow_right (by decide) (by omega)
  have h16 : (4 : Nat) ^ 16 = 4294967296 := by norm_num
  have hU : U32 = 4294967296 := by norm_num [U32]
  have hUM : UINT32_MAX = 4294967295 := by norm_num [UINT32_MAX, U32]
  have heq : (4 ^ k - 1) * 4 + 3 = 4 ^ (k + 1) - 1 := by omega
  refine ⟨?_, heq, by omega, ?_⟩
  · rw [heq]
    exact Nat.mod_eq_of_lt (by omega)
  · have hk15 : 4 ^ k ≤ 4 ^ 15 := Nat.pow_le_pow_right (by decide) (by omega)
    have h15 : (4 : Nat) ^ 15 = 1073741824 := by norm_num
    omega

/-- C2: the free list is a LIFO stack: `ers_obj_free_entry` pushes onto the
head of the reuse list, `ers_obj_alloc_entry` pops the head whenever the
reuse list is non-empty (before touching unused or new blocks), and hence
freeing two distinct entries `A` then `B` from the same manager and then
allocating twice returns `B` first and `A` second. -/
theorem free_list_lifo (m : ERSystem) (A B : Entry) (_hAB : A ≠ B) :
    (∀ (m0 : ERSystem) (e : Entry),
        ers_obj_free_entry m0 e = { m0 with reuse := e :: m0.reuse })
    ∧ (∀ (m0 : ERSystem) (e : Entry) (rest : List Entry), m0.reuse = e :: rest →
        ers_obj_alloc_entry m0 = AllocResult.ok e { m0 with reuse := rest })
    ∧ ers_obj_alloc_entry (ers_obj_free_entry (ers_obj_free_entry m A) B)
        = AllocResult.ok B (ers_obj_free_entry m A)
    ∧ ers_obj_alloc_entry (ers_obj_free_entry m A) = AllocResult.ok A m := by
  refine ⟨fun m0 e => rfl, fun m0 e rest h => ?_, rfl, rfl⟩
  simp [ers_obj_alloc_entry, h]

/-- C2 witness: the LIFO scenario at a concrete manager and two concrete
distinct entries. -/
theorem free_list_lifo_witness :
    ers_obj_alloc_entry
        (ers_obj_free_entry (ers_obj_free_entry (freshManager 0 8) (0, 0)) (0, 1))
      = AllocResult.ok (0, 1) (ers_obj_free_entry (freshManager 0 8) (0, 0))
    ∧ ers_obj_alloc_entry (ers_obj_free_entry (freshManager 0 8) (0, 0))
      = AllocResult.ok (0, 0) (freshManager 0 8) :=
  ⟨(free_list_lifo (freshManager 0 8) (0, 0) (0, 1) (by decide)).2.2.1,
   (free_list_lifo (freshManager 0 8) (0, 0) (0, 1) (by decide)).2.2.2⟩

/-- C1 counterexample: calling `ers_new` with `size == 0` (here on the empty
registry, with link size 8 and alignment 8) does not terminate the process:
it logs an error and returns NULL, leaving the state unchanged. -/
theorem zero_size_not_fatal_cex :
    ers_new 8 8 0 emptyRoot = ErsNewResult.nullError emptyRoot
    ∧ ers_new 8 8 0 emptyRoot ≠ ErsNewResult.fatal := by
  exact ⟨rfl, by decide⟩

/-- C1 amended: for every call to `ers_new` with `size == 0`, the operation
logs an error and returns NULL with the registry unchanged (a recoverable
failure, not process termination). -/
theorem zero_size_returns_null (linkSize ALIGNED : Nat) (st : RootState) :
    ers_new linkSize ALIGNED 0 st = ErsNewResult.nullError st :=
  rfl

/-- C5 counterexample: on a fresh manager (empty free list, no unused
entries) the new-block branch of `ers_obj_alloc_entry` returns the slot at
index `ERS_BLOCK_ENTRIES - 1` of the new block — the last slot, not the
first. -/
theorem alloc_new_block_last_slot_cex :
    ers_obj_alloc_entry (freshManager 0 8)
      = AllocResult.ok (0, ERS_BLOCK_ENTRIES - 1)
          { freshManager 0 8 with max := 3, free := ERS_BLOCK_ENTRIES - 1, num := 1 }
    ∧ (ERS_BLOCK_ENTRIES - 1 : Nat) ≠ 0 := by
  exact ⟨rfl, by decide⟩

/-- C5 amended: whenever `ers_obj_alloc_entry` finds the free list empty and
no unused entries in the last block (and the capacity guard does not fire),
it grows the block array if it is full, allocates one new block of
`ERS_BLOCK_ENTRIES * entrySize` bytes, sets `free` to
`ERS_BLOCK_ENTRIES - 1`, appends the block, and returns the slot at index
`ERS_BLOCK_ENTRIES - 1` (byte offset `(ERS_BLOCK_ENTRIES - 1) * entrySize`)
of that new block — its last slot. -/
theorem alloc_new_block (m : ERSystem) (hr : m.reuse = []) (hf : m.free = 0)
    (hg : m.num = m.max → m.max ≠ UINT32_MAX) :
    ers_obj_alloc_entry m
      = AllocResult.ok (m.num, ERS_BLOCK_ENTRIES - 1)
          { m with
              max := if m.num = m.max then (m.max * 4 + 3) % U32 else m.max
              free := ERS_BLOCK_ENTRIES - 1
              num := m.num + 1 } := by
  unfold ers_obj_alloc_entry
  rw [hr]
  simp only [hf, Nat.lt_irrefl, if_false]
  by_cases h : m.num = m.max
  · simp [h, hg h]
  · simp [h]

/-- C5 amended witness: the new-block branch on a fresh manager of size 8. -/
theorem alloc_new_block_witness :
    ers_obj_alloc_entry (freshManager 0 8)
      = AllocResult.ok (0, ERS_BLOCK_ENTRIES - 1)
          { freshManager 0 8 with
              max := if (freshManager 0 8).num = (freshManager 0 8).max
                then ((freshManager 0 8).max * 4 + 3) % U32 else (freshManager 0 8).max
              free := ERS_BLOCK_ENTRIES - 1
              num := (freshManager 0 8).num + 1 } :=
  alloc_new_block (freshManager 0 8) rfl rfl (fun _ => by decide)

/-- Helper: a successful registry scan returns the identity of a manager of
the requested (normalized) size that is present in the updated root list. -/
theorem scanRoot_ok (sz : Nat) :
    ∀ (root : List ERSystem) (h : Nat) (root' : List ERSystem),
      scanRoot sz root = some (h, root') →
      ∃ obj, obj ∈ root' ∧ obj.id = h ∧ obj.size = sz := by
  intro root
  induction root with
  | nil => intro h root' hs; simp [scanRoot] at hs
  | cons a rest ih =>
    intro h root' hs
    by_cases ha : a.size = sz
    · rw [scanRoot, if_pos ha] at hs
      obtain ⟨h1, h2⟩ := Prod.mk.injEq .. ▸ (Option.some.injEq .. ▸ hs)
      exact ⟨{ a with destroy := a.destroy + 1 }, by rw [← h2]; exact List.mem_cons_self .., h1, ha⟩
    · rw [scanRoot, if_neg ha] at hs
      cases hrec : scanRoot sz rest with
      | none => rw [hrec] at hs; exact absurd hs (by simp)
      | some p =>
        rw [hrec] at hs
        obtain ⟨h0, rest'⟩ := p
        simp only [Option.some.injEq, Prod.mk.injEq] at hs
        obtain ⟨hh, hr⟩ := hs
        obtain ⟨obj, hmem, hid, hsz⟩ := ih h0 rest' hrec
        exact ⟨obj, by rw [← hr]; exact List.mem_cons_of_mem a hmem, hh ▸ hid, hsz⟩

/-- Helper: when no wrap occurs, `normalizeSize` is the least multiple of the
alignment that is at least `max size linkSize`. -/
theorem normalizeSize_round_up (linkSize ALIGNED size : Nat) (hal : 0 < ALIGNED)
    (hfit : Nat.max size linkSize + ALIGNED ≤ U32) :
    normalizeSize linkSize ALIGNED size % ALIGNED = 0
    ∧ Nat.max size linkSize ≤ normalizeSize linkSize ALIGNED size
    ∧ normalizeSize linkSize ALIGNED size < Nat.max size linkSize + ALIGNED := by
  have hs1 : (if size < linkSize then linkSize else size) = Nat.max size linkSize := by
    rcases Nat.lt_or_ge size linkSize with h | h
    · rw [if_pos h]; exact (Nat.max_eq_right (Nat.le_of_lt h)).symm
    · rw [if_neg (Nat.not_lt.mpr h)]; exact (Nat.max_eq_left h).symm
  set s1 := Nat.max size linkSize with hdef
  have hmod : s1 % ALIGNED < ALIGNED := Nat.mod_lt _ hal
  have hdm : ALIGNED * (s1 / ALIGNED) + s1 % ALIGNED = s1 := Nat.div_add_mod s1 ALIGNED
  unfold normalizeSize
  rw [hs1]
  by_cases hz : s1 % ALIGNED = 0
  · rw [if_neg (not_not_intro hz)]
    refine ⟨hz, Nat.le_refl s1, ?_⟩
    omega
  · simp only [ne_eq, hz, not_false_eq_true, if_true, ite_true]
    have hlt : s1 + (ALIGNED - s1 % ALIGNED) < U32 := by omega
    rw [Nat.mod_eq_of_lt hlt]
    have heq : s1 + (ALIGNED - s1 % ALIGNED) = ALIGNED * (s1 / ALIGNED) + ALIGNED := by
      omega
    refine ⟨?_, by omega, by omega⟩
    rw [heq, Nat.add_mod_right, Nat.mul_mod_right]

/-- C6 counterexample: with link size 8 and alignment 8, acquiring size
`4294967295` (a valid non-zero `uint32`) from the empty registry creates a
manager whose entry size is 0 — the `uint32` alignment addition wraps — so
the entry size is not the requested size rounded up (it is below the
request). -/
theorem entry_size_normalized_cex :
    ers_new 8 8 4294967295 emptyRoot
      = ErsNewResult.ok 0 { root := [freshManager 0 0], nextId := 1 }
    ∧ ers_obj_entry_size (freshManager 0 0) = 0
    ∧ ¬ (4294967295 ≤ ers_obj_entry_size (freshManager 0 0)) := by
  exact ⟨by decide, rfl, by decide⟩

/-- C6 amended: for every size `s > 0` such that the rounded-up size does
not wrap the `uint32` range (`max s linkSize + ALIGNED ≤ 2^32`), the manager
created or found by `ers_new` has entry size `normalizeSize`, which is `s`
raised to the minimum link size and then rounded up to the next multiple of
the alignment boundary (the least multiple of `ALIGNED` at least
`max s linkSize`), and `ers_obj_entry_size` returns exactly that value; in
particular size 5 with alignment 8 and link size 8 yields 8. -/
theorem entry_size_normalized :
    (∀ (ls al s : Nat) (st : RootState) (h : Nat) (st' : RootState),
        0 < al → 0 < s → Nat.max s ls + al ≤ U32 →
        ers_new ls al s st = ErsNewResult.ok h st' →
        ∃ obj, obj ∈ st'.root ∧ obj.id = h
          ∧ ers_obj_entry_size obj = normalizeSize ls al s
          ∧ normalizeSize ls al s % al = 0
          ∧ Nat.max s ls ≤ normalizeSize ls al s
          ∧ normalizeSize ls al s < Nat.max s ls + al)
    ∧ normalizeSize 8 8 5 = 8 := by
  refine ⟨?_, by decide⟩
  intro ls al s st h st' hal hs hfit hok
  obtain ⟨h1, h2, h3⟩ := normalizeSize_round_up ls al s hal hfit
  unfold ers_new at hok
  rw [if_neg (Nat.pos_iff_ne_zero.mp hs)] at hok
  simp only at hok
  cases hscan : scanRoot (normalizeSize ls al s) st.root with
  | some p =>
    obtain ⟨h0, root'⟩ := p
    rw [hscan] at hok
    simp only [ErsNewResult.ok.injEq] at hok
    obtain ⟨hh, hst⟩ := hok
    obtain ⟨obj, hmem, hid, hsz⟩ := scanRoot_ok (normalizeSize ls al s) st.root h0 root' hscan
    exact ⟨obj, by rw [← hst]; exact hmem, hh ▸ hid, by rw [ers_obj_entry_size, hsz],
      h1, h2, h3⟩
  | none =>
    rw [hscan] at hok
    by_cases hfull : st.root.length = ERS_ROOT_SIZE
    · rw [if_pos hfull] at hok; exact absurd hok (by simp)
    · rw [if_neg hfull] at hok
      simp only [ErsNewResult.ok.injEq] at hok
      obtain ⟨hh, hst⟩ := hok
      refine ⟨freshManager st.nextId (normalizeSize ls al s), ?_, by rw [← hh]; rfl,
        rfl, h1, h2, h3⟩
      rw [← hst]
      exact List.mem_append_right _ (List.mem_singleton_self _)

/-- C6 amended witness: acquiring size 5 with link size 8 and alignment 8 on
the empty registry yields a manager of entry size 8. -/
theorem entry_size_normalized_witness :
    ∃ obj, obj ∈ ({ root := [freshManager 0 8], nextId := 1 } : RootState).root
      ∧ obj.id = 0
      ∧ ers_obj_entry_size obj = normalizeSize 8 8 5
      ∧ normalizeSize 8 8 5 % 8 = 0
      ∧ Nat.max 5 8 ≤ normalizeSize 8 8 5
      ∧ normalizeSize 8 8 5 < Nat.max 5 8 + 8 :=
  entry_size_normalized.1 8 8 5 emptyRoot 0 { root := [freshManager 0 8], nextId := 1 }
    (by decide) (by decide) (by decide) (by decide)

/-- Helper: the registry scan of `ers_new` stops at the first manager of the
requested size, increments its destroy lock in place and returns its
identity. -/
theorem scanRoot_first (sz : Nat) :
    ∀ (root : List ERSystem) (i : Nat) (obj : ERSystem),
      root[i]? = some obj → obj.size = sz →
      (∀ j, j < i → ∀ o, root[j]? = some o → o.size ≠ sz) →
      scanRoot sz root = some (obj.id, root.set i { obj with destroy := obj.destroy + 1 }) := by
  intro root
  induction root with
  | nil => intro i obj hi; simp at hi
  | cons a rest ih =>
    intro i obj hi hsz hfirst
    cases i with
    | zero =>
      rw [List.getElem?_cons_zero, Option.some.injEq] at hi
      subst hi
      rw [scanRoot, if_pos hsz]
      rfl
    | succ n =>
      have ha : a.size ≠ sz := hfirst 0 (Nat.succ_pos n) a List.getElem?_cons_zero
      rw [List.getElem?_cons_succ] at hi
      rw [scanRoot, if_neg ha,
        ih n obj hi hsz (fun j hj o ho =>
          hfirst (j + 1) (Nat.succ_lt_succ hj) o (by rw [List.getElem?_cons_succ]; exact ho))]
      rfl

/-- Helper: allocating right after freeing an entry returns that entry and
restores the manager state. -/
theorem alloc_after_free (m : ERSystem) (e : Entry) :
    ers_obj_alloc_entry (ers_obj_free_entry m e) = AllocResult.ok e m :=
  rfl

/-- C3: for every size `s > 0`, if the registry already holds a manager of
the same normalized size (first match at index `i`), a second `ers_new` call
returns a handle backed by that same manager with its destroy lock
(instance count) incremented by one, no new manager created (the registry
keeps its length), and an entry freed through one handle of that manager is
returned by the next allocation through the other. -/
theorem acquire_shares_manager (ls al s : Nat) (st : RootState) (i : Nat)
    (obj : ERSystem)
    (hs : s ≠ 0)
    (hi : st.root[i]? = some obj)
    (hsz : obj.size = normalizeSize ls al s)
    (hfirst : ∀ j, j < i → ∀ o, st.root[j]? = some o → o.size ≠ normalizeSize ls al s) :
    ers_new ls al s st
      = ErsNewResult.ok obj.id
          { st with root := st.root.set i { obj with destroy := obj.destroy + 1 } }
    ∧ (st.root.set i { obj with destroy := obj.destroy + 1 }).length = st.root.length
    ∧ ∀ e : Entry,
        ers_obj_alloc_entry (ers_obj_free_entry { obj with destroy := obj.destroy + 1 } e)
          = AllocResult.ok e { obj with destroy := obj.destroy + 1 } := by
  refine ⟨?_, List.length_set .., fun e => alloc_after_free _ e⟩
  unfold ers_new
  rw [if_neg hs]
  simp only
  rw [scanRoot_first (normalizeSize ls al s) st.root i obj hi hsz hfirst]

/-- C3 witness: acquiring size 5 (normalized 8) when a size-8 manager is
registered shares it and bumps its destroy lock from 1 to 2. -/
theorem acquire_shares_manager_witness :
    ers_new 8 8 5 { root := [freshManager 0 8], nextId := 1 }
      = ErsNewResult.ok 0
          { root := ([freshManager 0 8].set 0
              { freshManager 0 8 with destroy := (freshManager 0 8).destroy + 1 })
            nextId := 1 } :=
  (acquire_shares_manager 8 8 5 { root := [freshManager 0 8], nextId := 1 } 0
    (freshManager 0 8) (by decide) rfl (by decide)
    (fun j hj o _ => absurd hj (Nat.not_lt_zero j))).1

/-- Helper: the pointer-comparison loop of `ers_obj_destroy` finds the first
registry index holding the manager record `mid`. -/
theorem findMgr_first (mid : Nat) :
    ∀ (root : List ERSystem) (i : Nat) (obj : ERSystem),
      root[i]? = some obj → obj.id = mid →
      (∀ j, j < i → ∀ o, root[j]? = some o → o.id ≠ mid) →
      findMgr mid root = some i := by
  intro root
  induction root with
  | nil => intro i obj hi; simp at hi
  | cons a rest ih =>
    intro i obj hi hid hfirst
    cases i with
    | zero =>
      rw [List.getElem?_cons_zero, Option.some.injEq] at hi
      subst hi
      rw [findMgr, if_pos hid]
    | succ n =>
      have ha : a.id ≠ mid := hfirst 0 (Nat.succ_pos n) a List.getElem?_cons_zero
      rw [List.getElem?_cons_succ] at hi
      rw [findMgr, if_neg ha, ih n obj hi hid (fun j hj o ho =>
        hfirst (j + 1) (Nat.succ_lt_succ hj) o (by rw [List.getElem?_cons_succ]; exact ho))]
      rfl

/-- Helper: swap-with-last removal shortens the root list by one. -/
theorem swapRemove_length (root : List ERSystem) (i : Nat) :
    (swapRemove root i).length = root.length - 1 := by
  rw [swapRemove, List.length_dropLast, List.length_set]

/-- Helper: every manager surviving a swap-with-last removal at index `i`
already sat in the root list at an index other than `i`. -/
theorem swapRemove_mem (root : List ERSystem) (i : Nat) (hi : i < root.length)
    (o : ERSystem) (ho : o ∈ swapRemove root i) :
    ∃ j, j < root.length ∧ j ≠ i ∧ root[j]? = some o := by
  rw [swapRemove] at ho
  obtain ⟨n, hn, hget⟩ := List.mem_iff_getElem.mp ho
  have hn1 : n < root.length - 1 := by
    have h := List.length_dropLast (root.set i (root.getLast?.getD default))
    rw [List.length_set] at h
    omega
  rw [List.getElem_dropLast] at hget
  by_cases hni : n = i
  · subst hni
    rw [List.getElem_set_self] at hget
    have hlast : root.getLast? = some root[root.length - 1] := by
      rw [List.getLast?_eq_getElem?, List.getElem?_eq_getElem (by omega)]
    rw [hlast, Option.getD_some] at hget
    refine ⟨root.length - 1, by omega, by omega, ?_⟩
    rw [List.getElem?_eq_getElem (by omega), hget]
  · rw [List.getElem_set_ne (fun h => hni h.symm)] at hget
    refine ⟨n, by omega, hni, ?_⟩
    rw [List.getElem?_eq_getElem (by omega), hget]

/-- Helper: the registry scan finds nothing when no registered manager has
the requested size. -/
theorem scanRoot_none (sz : Nat) :
    ∀ root : List ERSystem, (∀ o ∈ root, o.size ≠ sz) → scanRoot sz root = none := by
  intro root
  induction root with
  | nil => intro; rfl
  | cons a rest ih =>
    intro h
    rw [scanRoot, if_neg (h a (List.mem_cons_self ..)),
      ih fun o ho => h o (List.mem_cons_of_mem a ho)]

/-- C7: `ers_obj_destroy` on the (first-matching) registered manager record
`mid` decrements its destroy lock (instance count); while the count stays
positive the manager merely stays registered with the decremented count, and
exactly when it reaches zero the manager is removed from the root array by
swapping the last registered manager into its slot, so that — under the
registry invariants (pairwise-distinct sizes, length within `ERS_ROOT_SIZE`)
— a subsequent `ers_new` for any size with the same normalized size creates
a fresh manager (`freshManager`: no blocks, empty free list, destroy lock
1). -/
theorem release_handle (st : RootState) (mid i : Nat) (obj : ERSystem)
    (hi : st.root[i]? = some obj) (hid : obj.id = mid)
    (hfirst : ∀ j, j < i → ∀ o, st.root[j]? = some o → o.id ≠ mid) :
    (2 ≤ obj.destroy →
        ers_obj_destroy mid st
          = { st with root := st.root.set i { obj with destroy := obj.destroy - 1 } })
    ∧ (obj.destroy = 1 →
        ers_obj_destroy mid st = { st with root := swapRemove st.root i }
        ∧ (swapRemove st.root i).length + 1 = st.root.length
        ∧ (List.Pairwise (fun a b => a.size ≠ b.size) st.root →
            st.root.length ≤ ERS_ROOT_SIZE →
            ∀ ls al s, s ≠ 0 → normalizeSize ls al s = obj.size →
              ers_new ls al s { st with root := swapRemove st.root i }
                = ErsNewResult.ok st.nextId
                    { root := swapRemove st.root i
                        ++ [freshManager st.nextId (normalizeSize ls al s)]
                      nextId := st.nextId + 1 })) := by
  have hilen : i < st.root.length := by
    rcases Nat.lt_or_ge i st.root.length with h | h
    · exact h
    · rw [List.getElem?_eq_none h] at hi; cases hi
  have hfind : findMgr mid st.root = some i := findMgr_first mid st.root i obj hi hid hfirst
  have hgetD : st.root.getD i default = obj := by
    rw [List.getD_eq_getElem?_getD, hi, Option.getD_some]
  constructor
  · intro h2
    unfold ers_obj_destroy
    rw [hfind]
    simp only [hgetD]
    rw [if_neg (show ¬ obj.destroy = 0 by omega),
      if_pos (show obj.destroy - 1 ≠ 0 by omega)]
  · intro h1
    have hstep : ers_obj_destroy mid st = { st with root := swapRemove st.root i } := by
      unfold ers_obj_destroy
      rw [hfind]
      simp only [hgetD]
      rw [if_neg (show ¬ obj.destroy = 0 by omega)]
      rw [if_neg (show ¬ obj.destroy - 1 ≠ 0 by omega)]
    refine ⟨hstep, by rw [swapRemove_length]; omega, ?_⟩
    intro hpw hcap ls al s hs hnorm
    have hobj : st.root[i] = obj := by
      have := List.getElem?_eq_getElem hilen
      rw [hi] at this
      exact (Option.some.injEq .. ▸ this).symm
    have hnone : scanRoot (normalizeSize ls al s) (swapRemove st.root i) = none := by
      apply scanRoot_none
      intro o ho
      obtain ⟨j, hj, hjne, hjget⟩ := swapRemove_mem st.root i hilen o ho
      have ho' : st.root[j] = o := by
        have := List.getElem?_eq_getElem hj
        rw [hjget] at this
        exact (Option.some.injEq .. ▸ this).symm
      rw [hnorm]
      have hpg := List.pairwise_iff_getElem.mp hpw
      rcases Nat.lt_or_ge j i with h | h
      · exact fun heq => hpg j i hj hilen h (by rw [ho', hobj, heq])
      · have hij : i < j := by omega
        exact fun heq => hpg i j hilen hj hij (by rw [ho', hobj, heq])
    unfold ers_new
    rw [if_neg hs]
    simp only
    rw [hnone]
    rw [if_neg (show ¬ (swapRemove st.root i).length = ERS_ROOT_SIZE by
      rw [swapRemove_length]
      have : 0 < ERS_ROOT_SIZE := by decide
      omega)]

/-- C7 witness: releasing the only handle of the first of two registered
managers removes it by moving the last manager into its slot, and a
subsequent acquire for a size normalizing to the removed size class creates
a fresh manager. -/
theorem release_handle_witness :
    ers_obj_destroy 0 { root := [freshManager 0 8, freshManager 1 16], nextId := 2 }
      = { root := [freshManager 1 16], nextId := 2 }
    ∧ ers_new 8 8 5 { root := [freshManager 1 16], nextId := 2 }
      = ErsNewResult.ok 2 { root := [freshManager 1 16, freshManager 2 8], nextId := 3 } := by
  have h := (release_handle { root := [freshManager 0 8, freshManager 1 16], nextId := 2 }
    0 0 (freshManager 0 8) rfl rfl
    (fun j hj o _ => absurd hj (Nat.not_lt_zero j))).2 rfl
  refine ⟨h.1, ?_⟩
  have h2 := h.2.2 (by decide) (by decide) 8 8 5 (by decide) (by decide)
  exact h2

/-- Helper: `ers_new` on an empty root registry always creates and registers
a fresh manager (for any non-zero requested size). -/
theorem ers_new_empty_root (ls al s n : Nat) (hs : s ≠ 0) :
    ers_new ls al s { root := [], nextId := n }
      = ErsNewResult.ok n
          { root := [freshManager n (normalizeSize ls al s)], nextId := n + 1 } := by
  unfold ers_new
  rw [if_neg hs]
  simp only [scanRoot]
  rw [if_neg (show ¬ ([] : List ERSystem).length = ERS_ROOT_SIZE by decide)]
  rfl

/-- C8: `ers_force_destroy_all` releases, for every registered manager and
irrespective of its destroy lock (instance count), every entry block, the
block-pointer array (when one was allocated, i.e. `max ≠ 0`), and the
manager record itself, and leaves the root registry empty, so that any
subsequent `ers_new` starts from an empty registry and creates a fresh
manager. -/
theorem force_destroy_all_releases (st : RootState) :
    (ers_force_destroy_all st).1.root = []
    ∧ (∀ obj, obj ∈ st.root →
        Resource.managerMem obj.id ∈ (ers_force_destroy_all st).2
        ∧ (obj.max ≠ 0 →
            Resource.blockArrayMem obj.id ∈ (ers_force_destroy_all st).2
            ∧ ∀ j, j < obj.num → Resource.blockMem obj.id j ∈ (ers_force_destroy_all st).2))
    ∧ (∀ ls al s, s ≠ 0 →
        ers_new ls al s (ers_force_destroy_all st).1
          = ErsNewResult.ok st.nextId
              { root := [freshManager st.nextId (normalizeSize ls al s)]
                nextId := st.nextId + 1 }) := by
  refine ⟨rfl, ?_, fun ls al s hs => ers_new_empty_root ls al s st.nextId hs⟩
  intro obj hobj
  have hmem : freedByManager obj ∈ (st.root.map freedByManager) :=
    List.mem_map_of_mem freedByManager hobj
  refine ⟨?_, fun hmax => ⟨?_, fun j hj => ?_⟩⟩
  · exact List.mem_flatten.mpr ⟨freedByManager obj, hmem,
      by rw [freedByManager]; exact List.mem_append_right _ (List.mem_singleton_self _)⟩
  · refine List.mem_flatten.mpr ⟨freedByManager obj, hmem, ?_⟩
    rw [freedByManager, if_pos hmax]
    exact List.mem_append_left _ (List.mem_append_right _ (List.mem_singleton_self _))
  · refine List.mem_flatten.mpr ⟨freedByManager obj, hmem, ?_⟩
    rw [freedByManager, if_pos hmax]
    exact List.mem_append_left _ (List.mem_append_left _
      (List.mem_map_of_mem _ (List.mem_range.mpr hj)))

/-- C8 witness: forced teardown of a registry holding one manager with two
blocks and five outstanding instances releases both blocks, the block array
and the record, and the next acquire starts from the empty registry. -/
theorem force_destroy_all_releases_witness :
    Resource.managerMem 0
        ∈ (ers_force_destroy_all
            { root := [{ freshManager 0 8 with max := 3, num := 2, destroy := 5 }]
              nextId := 1 }).2
    ∧ Resource.blockMem 0 1
        ∈ (ers_force_destroy_all
            { root := [{ freshManager 0 8 with max := 3, num := 2, destroy := 5 }]
              nextId := 1 }).2
    ∧ ers_new 8 8 5
          (ers_force_destroy_all
            { root := [{ freshManager 0 8 with max := 3, num := 2, destroy := 5 }]
              nextId := 1 }).1
        = ErsNewResult.ok 1 { root := [freshManager 1 8], nextId := 2 } := by
  have h := force_destroy_all_releases
    { root := [{ freshManager 0 8 with max := 3, num := 2, destroy := 5 }], nextId := 1 }
  have hm := h.2.1 { freshManager 0 8 with max := 3, num := 2, destroy := 5 }
    (List.mem_singleton_self _)
  exact ⟨hm.1, (hm.2 (by decide)).2 1 (by decide), h.2.2 8 8 5 (by decide)⟩

/-- C9: `ers_report` is purely observational — it returns the root state (and
so every manager's reuse list, block count, capacity, free count, instance
count and entry size, and the registry contents and count) unchanged. -/
theorem report_frame (st : RootState) : (ers_report st).2 = st :=
  rfl

/-- C4: when `ers_obj_alloc_entry` needs a new block and the block count
equals the (reachable, i.e. of the form `4^k - 1`) capacity, the capacity is
updated to `oldCapacity * 4 + 3` — taking the values 3, 15, 63, ... from 0 —
and this `uint32` computation never wraps before the guard fires; the
operation is fatal exactly in the guarded case `max = UINT32_MAX` (`k = 16`),
which is exactly when the grown capacity would leave the representable
range. -/
theorem capacity_growth (m : ERSystem) (k : Nat) (hk : k ≤ 16)
    (hmax : m.max = 4 ^ k - 1) (hr : m.reuse = []) (hf : m.free = 0)
    (hnm : m.num = m.max) :
    (k = 16 → ers_obj_alloc_entry m = AllocResult.fatal ∧ UINT32_MAX < m.max * 4 + 3)
    ∧ (k < 16 →
        (m.max * 4 + 3) % U32 = m.max * 4 + 3
        ∧ m.max * 4 + 3 = 4 ^ (k + 1) - 1
        ∧ m.max * 4 + 3 ≤ UINT32_MAX
        ∧ ers_obj_alloc_entry m
            = AllocResult.ok (m.num, ERS_BLOCK_ENTRIES - 1)
                { m with
                    max := m.max * 4 + 3
                    free := ERS_BLOCK_ENTRIES - 1
                    num := m.num + 1 }) := by
  constructor
  · intro h16
    subst h16
    have hum : m.max = UINT32_MAX := by rw [hmax]; norm_num [UINT32_MAX, U32]
    constructor
    · unfold ers_obj_alloc_entry
      rw [hr]
      simp only [hf, Nat.lt_irrefl, if_false, ite_false]
      rw [if_pos hnm, if_pos hum]
    · rw [hum]
      have : 0 < UINT32_MAX := by norm_num [UINT32_MAX, U32]
      omega
  · intro hk16
    obtain ⟨hmod, heq, hle, hne⟩ := cap_growth_arith k hk16
    rw [← hmax] at hmod heq hle hne
    refine ⟨hmod, heq, hle, ?_⟩
    unfold ers_obj_alloc_entry
    rw [hr]
    simp only [hf, Nat.lt_irrefl, if_false, ite_false]
    rw [if_pos hnm, if_neg hne, hmod]

/-- C4 witness: growing a full manager with capacity 3 (and 3 blocks)
reaches capacity 15 and hands out the last slot of the fourth block. -/
theorem capacity_growth_witness :
    ers_obj_alloc_entry
        { id := 0, reuse := [], free := 0, num := 3, max := 3, destroy := 1, size := 8 }
      = AllocResult.ok (3, ERS_BLOCK_ENTRIES - 1)
          { id := 0, reuse := [], free := ERS_BLOCK_ENTRIES - 1, num := 4, max := 15,
            destroy := 1, size := 8 } :=
  ((capacity_growth
      { id := 0, reuse := [], free := 0, num := 3, max := 3, destroy := 1, size := 8 }
      1 (by decide) (by decide) rfl rfl rfl).2 (by decide)).2.2.2

/-- Helper: any manager in the root list returned by a successful registry
scan is either an original member or an original member with its destroy
lock incremented. -/
theorem scanRoot_mem_origin (sz : Nat) :
    ∀ (root : List ERSystem) (h : Nat) (root' : List ERSystem),
      scanRoot sz root = some (h, root') →
      ∀ o ∈ root', o ∈ root ∨ ∃ o0, o0 ∈ root ∧ o = { o0 with destroy := o0.destroy + 1 } := by
  intro root
  induction root with
  | nil => intro h root' hs; simp [scanRoot] at hs
  | cons a rest ih =>
    intro h root' hs o ho
    by_cases ha : a.size = sz
    · rw [scanRoot, if_pos ha] at hs
      obtain ⟨h1, h2⟩ := Prod.mk.injEq .. ▸ (Option.some.injEq .. ▸ hs)
      rw [← h2] at ho
      rcases List.mem_cons.mp ho with hh | hh
      · exact Or.inr ⟨a, List.mem_cons_self .., hh⟩
      · exact Or.inl (List.mem_cons_of_mem a hh)
    · rw [scanRoot, if_neg ha] at hs
      cases hrec : scanRoot sz rest with
      | none => rw [hrec] at hs; exact absurd hs (by simp)
      | some p =>
        rw [hrec] at hs
        obtain ⟨h0, rest'⟩ := p
        simp only [Option.some.injEq, Prod.mk.injEq] at hs
        obtain ⟨hh, hrr⟩ := hs
        rw [← hrr] at ho
        rcases List.mem_cons.mp ho with hh2 | hh2
        · exact Or.inl (hh2 ▸ List.mem_cons_self ..)
        · rcases ih h0 rest' hrec o hh2 with hcase | ⟨o0, ho0, ho0eq⟩
          · exact Or.inl (List.mem_cons_of_mem a hcase)
          · exact Or.inr ⟨o0, List.mem_cons_of_mem a ho0, ho0eq⟩

/-- Helper: the invariant only constrains `free`, `num` and `max`, so it is
unaffected by a destroy-lock change. -/
theorem ErsInv_destroy_bump (o0 : ERSystem) (d : Nat) (h : ErsInv o0) :
    ErsInv { o0 with destroy := d } :=
  h

/-- Helper: a freshly initialized manager satisfies the invariant. -/
theorem ErsInv_fresh (id sz : Nat) : ErsInv (freshManager id sz) :=
  ⟨Nat.le_refl 0, Nat.zero_le _, fun h => absurd h (Nat.lt_irrefl 0), 0, Nat.zero_le 16, rfl⟩

/-- C10: every manager created by `ers_new` and mutated only through
`ers_obj_alloc_entry` and `ers_obj_free_entry` maintains the invariant
`ErsInv` (`num ≤ max`, `free ≤ ERS_BLOCK_ENTRIES - 1`, `0 < free → 1 ≤ num`,
capacity of the growth sequence); consequently the unused-entry branch of
allocation indexes the existing block `num - 1` at a slot offset strictly
below `ERS_BLOCK_ENTRIES`, never out of bounds. -/
theorem manager_invariant :
    (∀ (ls al s : Nat) (st : RootState) (h : Nat) (st' : RootState),
        (∀ o ∈ st.root, ErsInv o) →
        ers_new ls al s st = ErsNewResult.ok h st' →
        ∀ o ∈ st'.root, ErsInv o)
    ∧ (∀ (m : ERSystem) (e : Entry) (m' : ERSystem),
        ErsInv m → ers_obj_alloc_entry m = AllocResult.ok e m' → ErsInv m')
    ∧ (∀ (m : ERSystem) (e : Entry), ErsInv m → ErsInv (ers_obj_free_entry m e))
    ∧ (∀ m : ERSystem, ErsInv m → m.reuse = [] → 0 < m.free →
        ers_obj_alloc_entry m
            = AllocResult.ok (m.num - 1, m.free - 1) { m with free := m.free - 1 }
        ∧ m.num - 1 < m.num ∧ m.free - 1 < ERS_BLOCK_ENTRIES) := by
  refine ⟨?_, ?_, ?_, ?_⟩
  · intro ls al s st h st' hall hok
    unfold ers_new at hok
    by_cases hs : s = 0
    · rw [if_pos hs] at hok; exact absurd hok (by simp)
    · rw [if_neg hs] at hok
      simp only at hok
      cases hscan : scanRoot (normalizeSize ls al s) st.root with
      | some p =>
        obtain ⟨h0, root'⟩ := p
        rw [hscan] at hok
        simp only [ErsNewResult.ok.injEq] at hok
        obtain ⟨hh, hst⟩ := hok
        intro o ho
        rw [← hst] at ho
        rcases scanRoot_mem_origin (normalizeSize ls al s) st.root h0 root' hscan o ho with
          hmem | ⟨o0, ho0, ho0eq⟩
        · exact hall o hmem
        · exact ho0eq ▸ ErsInv_destroy_bump o0 (o0.destroy + 1) (hall o0 ho0)
      | none =>
        rw [hscan] at hok
        by_cases hfull : st.root.length = ERS_ROOT_SIZE
        · rw [if_pos hfull] at hok; exact absurd hok (by simp)
        · rw [if_neg hfull] at hok
          simp only [ErsNewResult.ok.injEq] at hok
          obtain ⟨hh, hst⟩ := hok
          intro o ho
          rw [← hst] at ho
          rcases List.mem_append.mp ho with hmem | hmem
          · exact hall o hmem
          · rw [List.mem_singleton.mp hmem]
            exact ErsInv_fresh st.nextId (normalizeSize ls al s)
  · intro m e m' hInv heq
    obtain ⟨hnum, hfree, hpos, k, hk, hmax⟩ := hInv
    have hE : ERS_BLOCK_ENTRIES = 4096 := rfl
    unfold ers_obj_alloc_entry at heq
    cases hr : m.reuse with
    | cons a rest =>
      rw [hr] at heq
      simp only [AllocResult.ok.injEq] at heq
      rw [← heq.2]
      exact ⟨hnum, hfree, hpos, k, hk, hmax⟩
    | nil =>
      rw [hr] at heq
      by_cases h1 : 0 < m.free
      · simp only [if_pos h1, AllocResult.ok.injEq] at heq
        rw [← heq.2]
        exact ⟨hnum, show m.free - 1 ≤ ERS_BLOCK_ENTRIES - 1 by omega,
          fun hp => hpos h1, k, hk, hmax⟩
      · by_cases h2 : m.num = m.max
        · by_cases h3 : m.max = UINT32_MAX
          · simp only [if_neg h1, if_pos h2, if_pos h3] at heq
            exact AllocResult.noConfusion heq
          · -- growth step: max was 4^k - 1 with k < 16
            have hk16 : k < 16 := by
              rcases Nat.lt_or_ge k 16 with hlt | hge
              · exact hlt
              · have hkeq : k = 16 := by omega
                rw [hkeq] at hmax
                exact absurd (by rw [hmax]; norm_num [UINT32_MAX, U32]) h3
            obtain ⟨hmod, hsum, hle, hne⟩ := cap_growth_arith k hk16
            have h1p : 1 ≤ (4 : Nat) ^ k := Nat.one_le_pow k 4 (by decide)
            have hsucc : (4 : Nat) ^ (k + 1) = 4 ^ k * 4 := pow_succ 4 k
            simp only [if_neg h1, if_pos h2, if_neg h3, AllocResult.ok.injEq] at heq
            rw [← heq.2]
            refine ⟨show m.num + 1 ≤ (m.max * 4 + 3) % U32 by rw [hmax, hmod, hsum]; omega,
              Nat.le_refl _,
              fun hp => Nat.succ_le_succ (Nat.zero_le _),
              k + 1, by omega,
              show (m.max * 4 + 3) % U32 = 4 ^ (k + 1) - 1 by rw [hmax, hmod, hsum]⟩
        · simp only [if_neg h1, if_neg h2, AllocResult.ok.injEq] at heq
          rw [← heq.2]
          exact ⟨show m.num + 1 ≤ m.max by omega, Nat.le_refl _,
            fun hp => Nat.succ_le_succ (Nat.zero_le _), k, hk, hmax⟩
  · intro m e hInv
    exact hInv
  · intro m hInv hr hfree
    obtain ⟨hnum, hfle, hpos, _⟩ := hInv
    have hE : ERS_BLOCK_ENTRIES = 4096 := rfl
    refine ⟨?_, by have := hpos hfree; omega, by omega⟩
    unfold ers_obj_alloc_entry
    rw [hr, if_pos hfree]

/-- C10 witness: the invariant holds after the first allocation from a
fresh size-8 manager. -/
theorem manager_invariant_witness :
    ErsInv { id := 0, reuse := [], free := ERS_BLOCK_ENTRIES - 1, num := 1, max := 3,
             destroy := 1, size := 8 } :=
  manager_invariant.2.1 (freshManager 0 8) (0, ERS_BLOCK_ENTRIES - 1)
    { id := 0, reuse := [], free := ERS_BLOCK_ENTRIES - 1, num := 1, max := 3,
      destroy := 1, size := 8 }
    (ErsInv_fresh 0 8) rfl

end ERS
